import Mathlib

/-!
Shallow embedding of the signal-generation core of `app.py`
(`load_and_analyze_data` plus the emptiness guard of the presentation layer).

Prices are modelled as real numbers; the pandas `NaN` produced by a
one-element rolling standard deviation (ddof = 1) is modelled as `Option.none`,
and every arithmetic or comparison operation on that value follows the IEEE
rule "any comparison with NaN is false" exactly where the source relies on it
(signal assignment, band arithmetic, deviation score).

Dates and contract expiries only matter through their ordering and equality,
so they are modelled as naturals; an additional untouched raw CSV column is
modelled by the field `extra`.
-/

namespace Stocks

/-- One raw CSV row of a single instrument's file: trade date, the `Expiry`
tie-break column, a representative further untouched raw column (`extra`),
and the closing price. -/
structure Row where
  date : ℕ
  expiry : ℕ
  extra : ℤ
  close : ℝ

/-- The trading signal assigned to an observation (`'Buy' | 'Sell' | 'Hold'`). -/
inductive Signal where
  | buy
  | sell
  | hold
  deriving DecidableEq

/-- Sort key of `df.sort_values(['Date', 'Expiry'])` (line 33): lexicographic
on (date, expiry). -/
def rowLe (a b : Row) : Prop :=
  a.date < b.date ∨ (a.date = b.date ∧ a.expiry ≤ b.expiry)

instance : DecidableRel rowLe := fun a b => by
  unfold rowLe; exact inferInstance

instance : IsTotal Row rowLe :=
  ⟨fun a b => by unfold rowLe; omega⟩

instance : IsTrans Row rowLe :=
  ⟨fun a b c hab hbc => by unfold rowLe at *; omega⟩

/-- Sort key of `stock_data.sort_values('Date')` (line 53). -/
def dateLe (a b : Row) : Prop := a.date ≤ b.date

instance : DecidableRel dateLe := fun a b => by
  unfold dateLe; exact inferInstance

instance : IsTotal Row dateLe :=
  ⟨fun a b => by unfold dateLe; omega⟩

instance : IsTrans Row dateLe :=
  ⟨fun a b c hab hbc => by unfold dateLe at *; omega⟩

/-- Model of `groupby(key).first()` on an already sorted frame: keep, for each key
value, the first element currently carrying it.  Used with `key = Row.date`
for deduplication and with `key = id` for `combined_df['Stock'].unique()`. -/
def firstBy {α β : Type} [DecidableEq β] (key : α → β) : List α → List α
  | [] => []
  | a :: rest => a :: firstBy key (rest.filter (fun x => key x ≠ key a))
termination_by l => l.length
decreasing_by
  simp only [List.length_cons]
  exact Nat.lt_succ_of_le (List.length_filter_le _ _)

/-- Line 33: `df.sort_values(['Date','Expiry']).groupby('Date').first()` —
one row per trade date, chosen after sorting by (date, expiry). -/
def dedup (rows : List Row) : List Row :=
  firstBy Row.date (rows.insertionSort rowLe)

/-- Line 48: `window_size = 10`. -/
def windowSize : ℕ := 10

/-- The trailing window of `rolling(window=10, min_periods=1)` ending at
index `i`: the last at most ten closes among the first `i + 1`. -/
def window (closes : List ℝ) (i : ℕ) : List ℝ :=
  (closes.take (i + 1)).drop (i + 1 - windowSize)

/-- Arithmetic mean, as computed by `rolling(...).mean()` on one window. -/
noncomputable def mean (xs : List ℝ) : ℝ := xs.sum / xs.length

/-- Unbiased sample variance (pandas `ddof = 1`) of one window. -/
noncomputable def sampleVar (xs : List ℝ) : ℝ :=
  (xs.map (fun x => (x - mean xs) ^ 2)).sum / ((xs.length : ℝ) - 1)

/-- Line 56: `rolling(window=10, min_periods=1).std()` at index `i`.
With `ddof = 1` a one-element window yields NaN, modelled as `none`. -/
noncomputable def rollStd (closes : List ℝ) (i : ℕ) : Option ℝ :=
  if (window closes i).length ≤ 1 then none
  else some (Real.sqrt (sampleVar (window closes i)))

/-- Lines 61–63: start from `'Hold'`, overwrite with `'Buy'` where
`Close < Lower_Band`, then with `'Sell'` where `Close > Upper_Band`.
When the std (hence both bands) is NaN every comparison is false and the
initial `'Hold'` survives. -/
noncomputable def signalOf (close ma : ℝ) : Option ℝ → Signal
  | none => .hold
  | some sd =>
    if close > ma + sd then .sell
    else if close < ma - sd then .buy
    else .hold

/-- One row of `result_df`: the surviving raw columns (lines 31–43 never drop
them), the `Stock` tag, and the derived analysis columns of lines 55–66. -/
structure Point where
  stock : String
  date : ℕ
  expiry : ℕ
  extra : ℤ
  close : ℝ
  ma : ℝ
  std : Option ℝ
  upper : Option ℝ
  lower : Option ℝ
  signal : Signal
  devScore : Option ℝ

/-- The analysis columns attached to the row at index `i` of one stock's
date-sorted frame (lines 55–66); NaN std propagates into both bands and the
deviation score. -/
noncomputable def mkPoint (stock : String) (closes : List ℝ) (i : ℕ) (r : Row) : Point :=
  let m := mean (window closes i)
  let sd := rollStd closes i
  { stock := stock
    date := r.date
    expiry := r.expiry
    extra := r.extra
    close := r.close
    ma := m
    std := sd
    upper := sd.map (fun s => m + s)
    lower := sd.map (fun s => m - s)
    signal := signalOf r.close m sd
    devScore := sd.map (fun s => (r.close - m) / s) }

/-- Lines 52–66: one iteration of the per-stock loop — sort that stock's rows
by date, then compute the rolling columns and signals. -/
noncomputable def processStock (stock : String) (rows : List Row) : List Point :=
  let rs := rows.insertionSort dateLe
  let closes := rs.map Row.close
  rs.enum.map (fun p => mkPoint stock closes p.1 p.2)

/-- What one iteration of the reading loop (lines 29–38) observes about a
source file: missing (`FileNotFoundError`), readable rows, or a file that
exists but blows up while being read/normalized (any other exception). -/
inductive Source where
  | missing
  | corrupt
  | ok (rows : List Row)

/-- Tests whether a source is missing. -/
def isMissing : Source → Bool
  | .missing => true
  | _ => false

/-- Tests whether a source is corrupt. -/
def isCorrupt : Source → Bool
  | .corrupt => true
  | _ => false

/-- The rows of a readable source. -/
def okRows : Source → Option (List Row)
  | .ok rows => some rows
  | _ => none

/-- Lines 29–38: the loading loop.  A missing file is caught
(`except FileNotFoundError`), reported with `st.error`, and skipped; any
other exception propagates and aborts the run (`Except.error`).  On success
it returns the per-stock deduplicated frames together with the number of
`st.error` warnings that were emitted. -/
def loadAll : List (String × Source) → Except Unit (List (String × List Row) × ℕ)
  | [] => .ok ([], 0)
  | (name, src) :: rest =>
    match src with
    | .corrupt => .error ()
    | .missing => (loadAll rest).map (fun p => (p.1, p.2 + 1))
    | .ok rows => (loadAll rest).map (fun p => ((name, dedup rows) :: p.1, p.2))

/-- Line 51: `combined_df['Stock'].unique()` after the sort by
`['Stock', 'Date']` — the distinct stock names in ascending order. -/
def stocksOf (avail : List (String × List Row)) : List String :=
  firstBy id ((avail.map Prod.fst).insertionSort (· ≤ ·))

/-- Line 52: the rows of `combined_df` belonging to one stock. -/
def rowsFor (avail : List (String × List Row)) (s : String) : List Row :=
  (avail.filter (fun p => p.1 = s)).flatMap Prod.snd

/-- Lines 40–71: the analysis pass over the loaded frames — empty result when
nothing was loaded, otherwise the per-stock blocks concatenated in the order
`unique()` yields. -/
noncomputable def analyzeCore (avail : List (String × List Row)) : List Point :=
  if avail.isEmpty then []
  else (stocksOf avail).flatMap (fun s => processStock s (rowsFor avail s))

/-- The whole of `load_and_analyze_data`: load (possibly aborting on an
uncaught exception), then analyze. -/
noncomputable def analyzeE (srcs : List (String × Source)) : Except Unit (List Point) :=
  (loadAll srcs).map (fun p => analyzeCore p.1)

/-- Lines 77–79: the presentation layer stops (`st.stop`) on an empty
result and renders otherwise. -/
def display (res : List Point) : Option (List Point) :=
  if res.isEmpty then none else some res

/-- Modelled from the spec: `start = max(0, i - W + 1)` (§4.3). -/
def specStart (i : ℕ) : ℕ := (max 0 ((i : ℤ) - windowSize + 1)).toNat

/-- Modelled from the spec: the window `o[start..i]` of size `min(i+1, W)`
(§4.3), written by explicit indexing. -/
def specWindow (closes : List ℝ) (i : ℕ) : List ℝ :=
  (List.range (min (i + 1) windowSize)).map (fun j => closes.getD (specStart i + j) 0)

/-! Helper lemmas about `firstBy` -/

theorem mem_firstBy {α β : Type} [DecidableEq β] (key : α → β) :
    ∀ (l : List α) (a : α), a ∈ firstBy key l → a ∈ l
  | [], a, h => by simp [firstBy] at h
  | x :: rest, a, h => by
    rw [firstBy] at h
    rcases List.mem_cons.mp h with h | h
    · exact h ▸ List.mem_cons_self x rest
    · exact List.mem_cons_of_mem _ (List.mem_of_mem_filter (mem_firstBy key _ a h))
termination_by l => l.length
decreasing_by
  simp only [List.length_cons]
  exact Nat.lt_succ_of_le (List.length_filter_le _ _)

theorem firstBy_filter_key {α β : Type} [DecidableEq β] (key : α → β) :
    ∀ (l : List α) (k : β),
      (firstBy key l).filter (fun x => key x = k) =
        (l.filter (fun x => key x = k)).take 1
  | [], k => by simp [firstBy]
  | x :: rest, k => by
    rw [firstBy]
    by_cases hk : key x = k
    · subst hk
      simp only [List.filter_cons, decide_eq_true_eq, List.filter_eq_nil_iff]
      simp [List.filter_eq_nil_iff]
      intro a ha
      have := List.of_mem_filter (mem_firstBy key _ a ha)
      simpa using this
    · have hfilter : (rest.filter (fun y => key y ≠ key x)).filter (fun y => key y = k) =
          rest.filter (fun y => key y = k) := by
        rw [List.filter_filter]
        refine List.filter_congr (fun a _ => ?_)
        by_cases h : key a = k
        · simp [h]
          exact fun he => hk he.symm
        · simp [h]
      have ih := firstBy_filter_key key (rest.filter (fun y => key y ≠ key x)) k
      simp only [List.filter_cons, hk, decide_eq_true_eq, if_false, ih, hfilter,
        if_neg, not_false_eq_true]
termination_by l => l.length
decreasing_by
  simp only [List.length_cons]
  exact Nat.lt_succ_of_le (List.length_filter_le _ _)

theorem mem_map_key_firstBy {α β : Type} [DecidableEq β] (key : α → β) :
    ∀ (l : List α) (k : β), k ∈ (firstBy key l).map key ↔ k ∈ l.map key
  | [], k => by simp [firstBy]
  | x :: rest, k => by
    rw [firstBy]
    by_cases hk : key x = k
    · simp [hk]
    · have ih := mem_map_key_firstBy key (rest.filter (fun y => key y ≠ key x)) k
      simp only [List.map_cons, List.mem_cons, ih]
      constructor
      · rintro (h | h)
        · exact Or.inl h
        · rcases List.mem_map.mp h with ⟨a, ha, rfl⟩
          exact Or.inr (List.mem_map.mpr ⟨a, List.mem_of_mem_filter ha, rfl⟩)
      · rintro (h | h)
        · exact Or.inl h
        · rcases List.mem_map.mp h with ⟨a, ha, rfl⟩
          refine Or.inr (List.mem_map.mpr ⟨a, List.mem_filter.mpr ⟨ha, ?_⟩, rfl⟩)
          simpa using fun he : key a = key x => hk (he ▸ rfl)
termination_by l => l.length
decreasing_by
  simp only [List.length_cons]
  exact Nat.lt_succ_of_le (List.length_filter_le _ _)

theorem nodup_map_key_firstBy {α β : Type} [DecidableEq β] (key : α → β) :
    ∀ l : List α, ((firstBy key l).map key).Nodup
  | [] => by simp [firstBy]
  | x :: rest => by
    rw [firstBy]
    simp only [List.map_cons, List.nodup_cons]
    refine ⟨?_, nodup_map_key_firstBy key _⟩
    intro hmem
    rcases List.mem_map.mp hmem with ⟨a, ha, hk⟩
    have := List.of_mem_filter (mem_firstBy key _ a ha)
    simp only [decide_eq_true_eq] at this
    exact this hk
termination_by l => l.length
decreasing_by
  simp only [List.length_cons]
  exact Nat.lt_succ_of_le (List.length_filter_le _ _)

/-! Helper lemmas about the rolling window -/

theorem specStart_eq (i : ℕ) : specStart i = i + 1 - windowSize := by
  unfold specStart windowSize
  omega

theorem window_eq_specWindow (closes : List ℝ) (i : ℕ) (hi : i < closes.length) :
    window closes i = specWindow closes i := by
  have hlen : (window closes i).length = min (i + 1) windowSize := by
    simp [window, List.length_drop, List.length_take]
    omega
  have hslen : (specWindow closes i).length = min (i + 1) windowSize := by
    simp [specWindow]
  apply List.ext_getElem (by rw [hlen, hslen])
  intro n h₁ h₂
  have hn : n < min (i + 1) windowSize := hlen ▸ h₁
  have hidx : i + 1 - windowSize + n < closes.length := by omega
  have hwin : (window closes i)[n] = closes.getD (i + 1 - windowSize + n) 0 := by
    simp only [window]
    rw [List.getElem_drop, List.getElem_take, List.getD_eq_getElem closes 0 hidx]
  have hspec : (specWindow closes i)[n] = closes.getD (specStart i + n) 0 := by
    simp only [specWindow]
    rw [List.getElem_map, List.getElem_range]
  rw [hwin, hspec, specStart_eq]

theorem window_length (closes : List ℝ) (i : ℕ) (hi : i < closes.length) :
    (window closes i).length = min (i + 1) windowSize := by
  simp [window, List.length_drop, List.length_take]
  omega

theorem self_mem_window (closes : List ℝ) (i : ℕ) (hi : i < closes.length) :
    closes[i] ∈ window closes i := by
  have hlen := window_length closes i hi
  have hn : min (i + 1) windowSize - 1 < (window closes i).length := by
    rw [hlen]; unfold windowSize at *; omega
  have : (window closes i)[min (i + 1) windowSize - 1] = closes[i] := by
    simp only [window]
    rw [List.getElem_drop, List.getElem_take]
    congr 1
    unfold windowSize at *
    omega
  rw [← this]
  exact List.getElem_mem hn

/-! Deduplication: the kept row per date -/

/-- Modelled from the spec: sorting the same-date candidates "by the
secondary key ascending" (§4.1), i.e. by contract expiry. -/
def expiryLe (a b : Row) : Prop := a.expiry ≤ b.expiry

instance : DecidableRel expiryLe := fun a b => by
  unfold expiryLe; exact inferInstance

instance : IsTotal Row expiryLe :=
  ⟨fun a b => by unfold expiryLe; omega⟩

instance : IsTrans Row expiryLe :=
  ⟨fun a b c hab hbc => by unfold expiryLe at *; omega⟩

theorem orderedInsert_eq_cons {M : List Row} {r : Row} (h : ∀ m ∈ M, expiryLe r m) :
    M.orderedInsert expiryLe r = r :: M := by
  cases M with
  | nil => simp [List.orderedInsert]
  | cons m M' => simp [List.orderedInsert, h m (List.mem_cons_self m M')]

theorem filter_orderedInsert_date (d : ℕ) (r : Row) :
    ∀ L : List Row, L.Sorted rowLe →
      (L.orderedInsert rowLe r).filter (fun x => x.date = d) =
        if r.date = d then
          (L.filter (fun x => x.date = d)).orderedInsert expiryLe r
        else L.filter (fun x => x.date = d)
  | [], _ => by
    by_cases hr : r.date = d <;> simp [List.orderedInsert, List.filter_cons, hr]
  | b :: L, hs => by
    have hsL : L.Sorted rowLe := hs.of_cons
    have hbL : ∀ m ∈ L, rowLe b m := (List.sorted_cons.mp hs).1
    rw [List.orderedInsert]
    by_cases hrb : rowLe r b
    · rw [if_pos hrb]
      by_cases hrd : r.date = d
      · have hall : ∀ m ∈ (b :: L).filter (fun x => x.date = d), expiryLe r m := by
          intro m hm
          have hmd : m.date = d := by simpa using List.of_mem_filter hm
          have hrm : rowLe r m := by
            rcases List.mem_cons.mp (List.mem_of_mem_filter hm) with rfl | hm'
            · exact hrb
            · exact Trans.trans hrb (hbL m hm')
          rcases hrm with h | ⟨_, h⟩
          · omega
          · exact h
        rw [if_pos hrd, List.filter_cons, if_pos (by simpa using hrd),
          orderedInsert_eq_cons hall]
      · rw [if_neg hrd, List.filter_cons, if_neg (by simpa using hrd)]
    · rw [if_neg hrb]
      have ih := filter_orderedInsert_date d r L hsL
      rw [List.filter_cons, ih]
      by_cases hbd : b.date = d
      · by_cases hrd : r.date = d
        · have hexp : ¬ expiryLe r b := fun hle => hrb (Or.inr ⟨by omega, hle⟩)
          simp [hbd, hrd, List.filter_cons, List.orderedInsert, hexp]
        · simp [hbd, hrd, List.filter_cons]
      · by_cases hrd : r.date = d
        · simp [hbd, hrd, List.filter_cons]
        · simp [hbd, hrd, List.filter_cons]

theorem filter_insertionSort_date (d : ℕ) :
    ∀ rows : List Row,
      (rows.insertionSort rowLe).filter (fun x => x.date = d) =
        (rows.filter (fun x => x.date = d)).insertionSort expiryLe
  | [] => rfl
  | r :: rows => by
    rw [List.insertionSort,
      filter_orderedInsert_date d r _ (List.sorted_insertionSort rowLe rows),
      filter_insertionSort_date d rows, List.filter_cons]
    by_cases hrd : r.date = d
    · rw [if_pos hrd, if_pos (by simpa using hrd), List.insertionSort]
    · rw [if_neg hrd, if_neg (by simpa using hrd)]

/-! The classifier on explicit band positions -/

theorem signalOf_none (c m : ℝ) : signalOf c m none = .hold := rfl

theorem signalOf_sell_iff (c m sd : ℝ) :
    signalOf c m (some sd) = .sell ↔ m + sd < c := by
  simp only [signalOf]
  by_cases h1 : c > m + sd
  · rw [if_pos h1]
    exact iff_of_true rfl h1
  · rw [if_neg h1]
    by_cases h2 : c < m - sd
    · rw [if_pos h2]
      exact iff_of_false (fun hc => Signal.noConfusion hc) h1
    · rw [if_neg h2]
      exact iff_of_false (fun hc => Signal.noConfusion hc) h1

theorem signalOf_buy_iff (c m sd : ℝ) (h : 0 ≤ sd) :
    signalOf c m (some sd) = .buy ↔ c < m - sd := by
  simp only [signalOf]
  by_cases h1 : c > m + sd
  · rw [if_pos h1]
    exact iff_of_false (fun hc => Signal.noConfusion hc) (by intro hc; linarith)
  · rw [if_neg h1]
    by_cases h2 : c < m - sd
    · rw [if_pos h2]
      exact iff_of_true rfl h2
    · rw [if_neg h2]
      exact iff_of_false (fun hc => Signal.noConfusion hc) h2

theorem signalOf_hold_iff (c m sd : ℝ) (h : 0 ≤ sd) :
    signalOf c m (some sd) = .hold ↔ m - sd ≤ c ∧ c ≤ m + sd := by
  simp only [signalOf]
  by_cases h1 : c > m + sd
  · rw [if_pos h1]
    exact iff_of_false (fun hc => Signal.noConfusion hc) (by intro hc; linarith [hc.2])
  · rw [if_neg h1]
    by_cases h2 : c < m - sd
    · rw [if_pos h2]
      exact iff_of_false (fun hc => Signal.noConfusion hc) (by intro hc; linarith [hc.1])
    · rw [if_neg h2]
      exact iff_of_true rfl ⟨by linarith, by linarith⟩

/-! Membership in a per-stock block -/

theorem mem_processStock {s : String} {rows : List Row} {p : Point} :
    p ∈ processStock s rows ↔
      ∃ i r, (rows.insertionSort dateLe)[i]? = some r ∧
        p = mkPoint s ((rows.insertionSort dateLe).map Row.close) i r := by
  constructor
  · intro hp
    rcases List.mem_map.mp hp with ⟨q, hq, rfl⟩
    exact ⟨q.1, q.2, List.mem_enum_iff_getElem?.mp hq, rfl⟩
  · rintro ⟨i, r, hir, rfl⟩
    exact List.mem_map.mpr ⟨(i, r), List.mem_enum_iff_getElem?.mpr hir, rfl⟩

theorem processStock_getElem? {s : String} {rows : List Row} {i : ℕ} {p : Point} :
    (processStock s rows)[i]? = some p ↔
      ∃ r, (rows.insertionSort dateLe)[i]? = some r ∧
        p = mkPoint s ((rows.insertionSort dateLe).map Row.close) i r := by
  simp only [processStock, List.getElem?_map, List.getElem?_enum]
  cases h : (rows.insertionSort dateLe)[i]? with
  | none => simp
  | some r =>
    simp only [Option.map_some', Option.some.injEq]
    constructor
    · intro hp
      exact ⟨r, rfl, hp.symm⟩
    · rintro ⟨r', hr', rfl⟩
      cases hr'
      rfl

theorem stock_of_mem_processStock {s : String} {rows : List Row} {p : Point}
    (hp : p ∈ processStock s rows) : p.stock = s := by
  rcases mem_processStock.mp hp with ⟨i, r, _, rfl⟩
  simp [mkPoint]

theorem length_processStock (s : String) (rows : List Row) :
    (processStock s rows).length = rows.length := by
  simp [processStock, List.enum_length, List.length_insertionSort]

/-! Nonnegativity and zero-variance facts -/

theorem sum_sq_nonneg (c : ℝ) (l : List ℝ) : 0 ≤ (l.map (fun x => (x - c) ^ 2)).sum := by
  apply List.sum_nonneg
  intro x hx
  rcases List.mem_map.mp hx with ⟨y, _, rfl⟩
  positivity

theorem sampleVar_nonneg (xs : List ℝ) : 0 ≤ sampleVar xs := by
  unfold sampleVar
  rcases Nat.eq_zero_or_pos xs.length with h | h
  · rw [List.length_eq_zero.mp h]
    simp
  · rcases Nat.lt_or_ge xs.length 2 with h2 | h2
    · have : xs.length = 1 := by omega
      rw [this]
      simp
    · apply div_nonneg (sum_sq_nonneg _ _)
      have : (2 : ℝ) ≤ (xs.length : ℝ) := by exact_mod_cast h2
      linarith

theorem rollStd_nonneg {closes : List ℝ} {i : ℕ} {sd : ℝ}
    (h : rollStd closes i = some sd) : 0 ≤ sd := by
  unfold rollStd at h
  by_cases hlen : (window closes i).length ≤ 1
  · rw [if_pos hlen] at h
    cases h
  · rw [if_neg hlen] at h
    cases h
    exact Real.sqrt_nonneg _

theorem list_sum_zero_of_nonneg {l : List ℝ} (hpos : ∀ x ∈ l, 0 ≤ x)
    (hsum : l.sum = 0) : ∀ x ∈ l, x = 0 := by
  induction l with
  | nil => simp
  | cons a l ih =>
    rw [List.sum_cons] at hsum
    have ha : 0 ≤ a := hpos a (List.mem_cons_self a l)
    have hl : 0 ≤ l.sum := List.sum_nonneg (fun x hx => hpos x (List.mem_cons_of_mem a hx))
    have ha0 : a = 0 := by linarith
    have hl0 : l.sum = 0 := by linarith
    intro x hx
    rcases List.mem_cons.mp hx with rfl | hx
    · exact ha0
    · exact ih (fun y hy => hpos y (List.mem_cons_of_mem a hy)) hl0 x hx

theorem eq_mean_of_sampleVar_zero {xs : List ℝ} (hlen : 2 ≤ xs.length)
    (hvar : sampleVar xs = 0) : ∀ x ∈ xs, x = mean xs := by
  unfold sampleVar at hvar
  have hden : ((xs.length : ℝ) - 1) ≠ 0 := by
    have : (2 : ℝ) ≤ (xs.length : ℝ) := by exact_mod_cast hlen
    intro h; linarith
  have hsum : (xs.map (fun x => (x - mean xs) ^ 2)).sum = 0 := by
    rcases div_eq_zero_iff.mp hvar with h | h
    · exact h
    · exact absurd h hden
  intro x hx
  have hx2 : (x - mean xs) ^ 2 = 0 := by
    refine list_sum_zero_of_nonneg ?_ hsum _ (List.mem_map.mpr ⟨x, hx, rfl⟩)
    intro y hy
    rcases List.mem_map.mp hy with ⟨z, _, rfl⟩
    positivity
  have := pow_eq_zero_iff (n := 2) (by norm_num) |>.mp hx2
  linarith [sub_eq_zero.mp this]

/-! The loader, characterized -/

@[simp] theorem isCorrupt_missing : isCorrupt .missing = false := rfl

@[simp] theorem isCorrupt_corrupt : isCorrupt .corrupt = true := rfl

@[simp] theorem isCorrupt_ok (rows : List Row) : isCorrupt (.ok rows) = false := rfl

@[simp] theorem isMissing_missing : isMissing .missing = true := rfl

@[simp] theorem isMissing_corrupt : isMissing .corrupt = false := rfl

@[simp] theorem isMissing_ok (rows : List Row) : isMissing (.ok rows) = false := rfl

@[simp] theorem okRows_missing : okRows .missing = none := rfl

@[simp] theorem okRows_corrupt : okRows .corrupt = none := rfl

@[simp] theorem okRows_ok (rows : List Row) : okRows (.ok rows) = some rows := rfl

theorem loadAll_eq (srcs : List (String × Source)) :
    loadAll srcs =
      if srcs.any (fun p => isCorrupt p.2) then .error ()
      else .ok
        (srcs.filterMap (fun p => (okRows p.2).map (fun rows => (p.1, dedup rows))),
         (srcs.filter (fun p => isMissing p.2)).length) := by
  induction srcs with
  | nil => simp [loadAll]
  | cons x rest ih =>
    obtain ⟨name, src⟩ := x
    cases src with
    | corrupt => simp [loadAll]
    | missing =>
      rw [loadAll, ih]
      by_cases hc : rest.any (fun p => isCorrupt p.2)
      · simp [hc, Except.map, apply_ite, List.any_cons, List.filter_cons]
      · simp [hc, Except.map, apply_ite, List.any_cons, List.filter_cons]
    | ok rows =>
      rw [loadAll, ih]
      by_cases hc : rest.any (fun p => isCorrupt p.2)
      · simp [hc, Except.map, apply_ite, List.any_cons, List.filter_cons,
          List.filterMap_cons]
      · simp [hc, Except.map, apply_ite, List.any_cons, List.filter_cons,
          List.filterMap_cons]

/-! Filtering the analysis output by stock -/

theorem filter_flatMap_blocks (ls : List String) (f : String → List Point)
    (hf : ∀ s, ∀ p ∈ f s, p.stock = s) (hnd : ls.Nodup) (A : String) :
    (ls.flatMap f).filter (fun p => p.stock = A) = if A ∈ ls then f A else [] := by
  induction ls with
  | nil => simp
  | cons s ls ih =>
    rw [List.flatMap_cons, List.filter_append, ih hnd.of_cons]
    by_cases hsA : s = A
    · subst hsA
      have h1 : (f s).filter (fun p => p.stock = s) = f s := by
        rw [List.filter_eq_self]
        intro p hp; simpa using hf s p hp
      have h2 : s ∉ ls := (List.nodup_cons.mp hnd).1
      simp [h1, h2]
    · have h1 : (f s).filter (fun p => p.stock = A) = [] := by
        rw [List.filter_eq_nil_iff]
        intro p hp
        simp [hf s p hp]
        exact hsA
      have hAs : ¬ A = s := fun h => hsA h.symm
      simp [h1, List.mem_cons, hAs]

theorem nodup_stocksOf (avail : List (String × List Row)) : (stocksOf avail).Nodup := by
  have := nodup_map_key_firstBy (id : String → String)
    ((avail.map Prod.fst).insertionSort (· ≤ ·))
  rwa [List.map_id] at this

theorem mem_stocksOf {avail : List (String × List Row)} {A : String} :
    A ∈ stocksOf avail ↔ A ∈ avail.map Prod.fst := by
  unfold stocksOf
  have h1 := mem_map_key_firstBy (id : String → String)
    ((avail.map Prod.fst).insertionSort (· ≤ ·)) A
  rw [List.map_id, List.map_id] at h1
  rw [h1]
  exact (List.perm_insertionSort _ _).mem_iff

theorem filter_analyzeCore (avail : List (String × List Row)) (A : String) :
    (analyzeCore avail).filter (fun p => p.stock = A) =
      if A ∈ avail.map Prod.fst then processStock A (rowsFor avail A) else [] := by
  unfold analyzeCore
  by_cases he : avail.isEmpty
  · have : avail = [] := List.isEmpty_iff.mp he
    subst this
    simp
  · rw [if_neg he,
      filter_flatMap_blocks _ _ (fun s p hp => stock_of_mem_processStock hp)
        (nodup_stocksOf avail) A]
    by_cases hA : A ∈ avail.map Prod.fst
    · rw [if_pos (mem_stocksOf.mpr hA), if_pos hA]
    · rw [if_neg (fun h => hA (mem_stocksOf.mp h)), if_neg hA]

theorem mem_analyzeCore {avail : List (String × List Row)} {p : Point}
    (hp : p ∈ analyzeCore avail) : ∃ s, p ∈ processStock s (rowsFor avail s) := by
  unfold analyzeCore at hp
  by_cases he : avail.isEmpty
  · rw [if_pos he] at hp
    cases hp
  · rw [if_neg he] at hp
    rcases List.mem_flatMap.mp hp with ⟨s, _, hps⟩
    exact ⟨s, hps⟩

/-! ## Claim theorems -/

/-- C1: for an observation with `moving_average` and `std_dev` populated
the classifier assigns exactly one signal — Buy iff `close` is strictly below
the lower band, Sell iff strictly above the upper band, Hold in every other
case, including an undefined std (NaN) and, for the points the pipeline
actually produces, a zero std; the boundary cases `close = lower_band` and
`close = upper_band` resolve to Hold (strict inequality only for Buy/Sell). -/
theorem signal_classification_strict :
    ∀ (c m sd : ℝ),
      signalOf c m none = Signal.hold ∧
      (0 ≤ sd →
        ((signalOf c m (some sd) = Signal.buy ↔ c < m - sd) ∧
         (signalOf c m (some sd) = Signal.sell ↔ m + sd < c) ∧
         (signalOf c m (some sd) = Signal.hold ↔ m - sd ≤ c ∧ c ≤ m + sd))) ∧
      (∀ (s : String) (rows : List Row) (p : Point),
        p ∈ processStock s rows → p.std = some 0 → p.signal = Signal.hold) := by
  intro c m sd
  refine ⟨rfl,
    fun h => ⟨signalOf_buy_iff c m sd h, signalOf_sell_iff c m sd,
      signalOf_hold_iff c m sd h⟩, ?_⟩
  intro s rows p hp hstd
  rcases mem_processStock.mp hp with ⟨i, r, hir, rfl⟩
  obtain ⟨hi, hget⟩ := List.getElem?_eq_some.mp hir
  have hstd0 : rollStd ((rows.insertionSort dateLe).map Row.close) i = some 0 := by
    simpa [mkPoint] using hstd
  set closes := (rows.insertionSort dateLe).map Row.close with hcl
  have hi' : i < closes.length := by
    rw [hcl, List.length_map]
    exact hi
  have hlen2 : ¬ (window closes i).length ≤ 1 := by
    intro hle
    rw [rollStd, if_pos hle] at hstd0
    cases hstd0
  have hsqrt : Real.sqrt (sampleVar (window closes i)) = 0 := by
    rw [rollStd, if_neg hlen2] at hstd0
    injection hstd0
  have hvar : sampleVar (window closes i) = 0 :=
    (Real.sqrt_eq_zero (sampleVar_nonneg _)).mp hsqrt
  have hmem : closes[i] ∈ window closes i := self_mem_window closes i hi'
  have hclose? : closes[i]? = some r.close := by
    rw [hcl, List.getElem?_map, hir]
    rfl
  have hclose : closes[i] = r.close := by
    obtain ⟨h', hh⟩ := List.getElem?_eq_some.mp hclose?
    exact hh
  have hceq : r.close = mean (window closes i) := by
    rw [← hclose]
    exact eq_mean_of_sampleVar_zero (by omega) hvar _ hmem
  show (mkPoint s closes i r).signal = .hold
  simp only [mkPoint]
  rw [hstd0]
  rw [signalOf_hold_iff _ _ _ (le_refl 0)]
  constructor <;> rw [hceq] <;> simp

/-- Witness for C1: the hypotheses are satisfiable — `0 ≤ 1` yields the Buy
iff, and the second point of a flat two-day series has `std = some 0` and is
classified Hold. -/
theorem signal_classification_strict_witness :
    (signalOf 5 10 (some (1:ℝ)) = Signal.buy ↔ (5:ℝ) < 10 - 1) ∧
    (mkPoint "A" [10, 10] 1 ⟨1, 0, 0, 10⟩).signal = Signal.hold := by
  have hsort : ([⟨0, 0, 0, 10⟩, ⟨1, 0, 0, 10⟩] : List Row).insertionSort dateLe
      = [⟨0, 0, 0, 10⟩, ⟨1, 0, 0, 10⟩] := by
    simp [List.insertionSort, List.orderedInsert, dateLe]
  have hmem : (mkPoint "A" [10, 10] 1 ⟨1, 0, 0, 10⟩)
      ∈ processStock "A" [⟨0, 0, 0, 10⟩, ⟨1, 0, 0, 10⟩] := by
    simp only [processStock, hsort]
    simp [List.enum]
  have hw : window [(10:ℝ), 10] 1 = [(10:ℝ), 10] := by
    norm_num [window, windowSize]
  have hm : mean [(10:ℝ), 10] = 10 := by
    norm_num [mean]
  have hv : sampleVar [(10:ℝ), 10] = 0 := by
    norm_num [sampleVar, hm]
  have hstd : (mkPoint "A" [10, 10] 1 ⟨1, 0, 0, 10⟩).std = some 0 := by
    simp [mkPoint, rollStd, hw, hv]
  exact ⟨((signal_classification_strict 5 10 1).2.1 (by norm_num)).1,
    (signal_classification_strict 0 0 0).2.2 "A" _ _ hmem hstd⟩

/-- C4: the first observation of any instrument has
`moving_average = close`, an undefined (`none`) std, and signal Hold. -/
theorem warmup_first_point :
    ∀ (s : String) (rows : List Row) (p : Point),
      (processStock s rows).head? = some p →
      p.ma = p.close ∧ p.std = none ∧ p.signal = Signal.hold := by
  intro s rows p hp
  rw [List.head?_eq_getElem?] at hp
  rcases processStock_getElem?.mp hp with ⟨r, hr, rfl⟩
  obtain ⟨h0, hget⟩ := List.getElem?_eq_some.mp hr
  set closes := (rows.insertionSort dateLe).map Row.close with hcl
  have h0' : 0 < closes.length := by
    rw [hcl, List.length_map]
    exact h0
  obtain ⟨c, cs, hcons⟩ : ∃ c cs, closes = c :: cs := by
    cases hc : closes with
    | nil => rw [hc] at h0'; cases h0'
    | cons c cs => exact ⟨c, cs, rfl⟩
  have hc0 : c = r.close := by
    have h? : closes[0]? = some r.close := by
      rw [hcl, List.getElem?_map, hr]
      rfl
    rw [hcons] at h?
    simpa using h?
  have hwin : window closes 0 = [c] := by
    rw [hcons]
    simp [window, windowSize]
  refine ⟨?_, ?_, ?_⟩
  · show mean (window closes 0) = r.close
    rw [hwin, ← hc0]
    simp [mean]
  · show rollStd closes 0 = none
    rw [rollStd, if_pos (by rw [hwin]; simp)]
  · show signalOf r.close (mean (window closes 0)) (rollStd closes 0) = Signal.hold
    rw [rollStd, if_pos (by rw [hwin]; simp)]
    exact signalOf_none _ _

/-- Witness for C4: a concrete one-row instrument whose head point satisfies
the warm-up law. -/
theorem warmup_first_point_witness :
    (processStock "A" [⟨0, 0, 0, 7⟩]).head? = some (mkPoint "A" [7] 0 ⟨0, 0, 0, 7⟩) ∧
    (mkPoint "A" [7] 0 ⟨0, 0, 0, 7⟩).ma = (mkPoint "A" [7] 0 ⟨0, 0, 0, 7⟩).close ∧
    (mkPoint "A" [7] 0 ⟨0, 0, 0, 7⟩).std = none ∧
    (mkPoint "A" [7] 0 ⟨0, 0, 0, 7⟩).signal = Signal.hold := by
  have hp : (processStock "A" [⟨0, 0, 0, 7⟩]).head? = some (mkPoint "A" [7] 0 ⟨0, 0, 0, 7⟩) := by
    simp [processStock, List.insertionSort, List.orderedInsert, List.enum]
  exact ⟨hp, warmup_first_point "A" [⟨0, 0, 0, 7⟩] _ hp⟩

/-- C10: whenever a produced point has a defined, strictly positive std,
its signal and its deviation score `(close - ma) / std` agree: Buy iff the
score is `< -1`, Sell iff `> 1`, Hold iff it lies in `[-1, 1]`. -/
theorem deviation_score_signal_agreement :
    ∀ (s : String) (rows : List Row) (p : Point) (sd : ℝ),
      p ∈ processStock s rows → p.std = some sd → 0 < sd →
      p.devScore = some ((p.close - p.ma) / sd) ∧
      (p.signal = Signal.buy ↔ (p.close - p.ma) / sd < -1) ∧
      (p.signal = Signal.sell ↔ 1 < (p.close - p.ma) / sd) ∧
      (p.signal = Signal.hold ↔
        (-1 ≤ (p.close - p.ma) / sd ∧ (p.close - p.ma) / sd ≤ 1)) := by
  intro s rows p sd hp hstd hpos
  rcases mem_processStock.mp hp with ⟨i, r, hir, rfl⟩
  have hstd0 : rollStd ((rows.insertionSort dateLe).map Row.close) i = some sd := by
    simpa [mkPoint] using hstd
  simp only [mkPoint, hstd0]
  refine ⟨rfl, ?_, ?_, ?_⟩
  · rw [signalOf_buy_iff _ _ _ hpos.le, div_lt_iff₀ hpos]
    constructor <;> intro h <;> linarith
  · rw [signalOf_sell_iff, lt_div_iff₀ hpos]
    constructor <;> intro h <;> linarith
  · rw [signalOf_hold_iff _ _ _ hpos.le, le_div_iff₀ hpos, div_le_iff₀ hpos]
    constructor <;> rintro ⟨h1, h2⟩ <;> constructor <;> linarith

/-- Witness for C10: the second point of the series `[0, 2]` has
`std = √2 > 0` and the agreement holds for it. -/
theorem deviation_score_signal_agreement_witness :
    (mkPoint "A" [0, 2] 1 ⟨1, 0, 0, 2⟩ ∈ processStock "A" [⟨0, 0, 0, 0⟩, ⟨1, 0, 0, 2⟩]) ∧
    (mkPoint "A" [0, 2] 1 ⟨1, 0, 0, 2⟩).std = some (Real.sqrt 2) ∧
    (0 : ℝ) < Real.sqrt 2 ∧
    ((mkPoint "A" [0, 2] 1 ⟨1, 0, 0, 2⟩).signal = Signal.buy ↔
      ((mkPoint "A" [0, 2] 1 ⟨1, 0, 0, 2⟩).close - (mkPoint "A" [0, 2] 1 ⟨1, 0, 0, 2⟩).ma)
        / Real.sqrt 2 < -1) := by
  have hsort : ([⟨0, 0, 0, 0⟩, ⟨1, 0, 0, 2⟩] : List Row).insertionSort dateLe
      = [⟨0, 0, 0, 0⟩, ⟨1, 0, 0, 2⟩] := by
    simp [List.insertionSort, List.orderedInsert, dateLe]
  have hmem : mkPoint "A" [0, 2] 1 ⟨1, 0, 0, 2⟩
      ∈ processStock "A" [⟨0, 0, 0, 0⟩, ⟨1, 0, 0, 2⟩] := by
    simp only [processStock, hsort]
    simp [List.enum]
  have hw : window [(0:ℝ), 2] 1 = [(0:ℝ), 2] := by
    norm_num [window, windowSize]
  have hm : mean [(0:ℝ), 2] = 1 := by
    norm_num [mean]
  have hv : sampleVar [(0:ℝ), 2] = 2 := by
    norm_num [sampleVar, hm]
  have hstd : (mkPoint "A" [0, 2] 1 ⟨1, 0, 0, 2⟩).std = some (Real.sqrt 2) := by
    simp [mkPoint, rollStd, hw, hv]
  have hpos : (0 : ℝ) < Real.sqrt 2 := Real.sqrt_pos.mpr (by norm_num)
  exact ⟨hmem, hstd, hpos,
    (deviation_score_signal_agreement "A" _ _ (Real.sqrt 2) hmem hstd hpos).2.1⟩

/-- C2: per instrument in isolation, the point at index `i` of the
date-sorted series carries the arithmetic mean of the trailing window
`o[max(0, i-W+1) .. i]` of size `min(i+1, W)` with `W = 10` as its moving
average, and as std the unbiased (n−1 denominator) sample standard deviation
of that same window — undefined (`none`, pandas NaN) exactly when the window
has a single element. -/
theorem rolling_stats_spec :
    ∀ (s : String) (rows : List Row) (i : ℕ) (p : Point),
      (processStock s rows)[i]? = some p →
      (specWindow ((rows.insertionSort dateLe).map Row.close) i).length
          = min (i + 1) windowSize ∧
      p.ma = (specWindow ((rows.insertionSort dateLe).map Row.close) i).sum
          / ((specWindow ((rows.insertionSort dateLe).map Row.close) i).length : ℝ) ∧
      (p.std = none ↔
        (specWindow ((rows.insertionSort dateLe).map Row.close) i).length = 1) ∧
      (2 ≤ (specWindow ((rows.insertionSort dateLe).map Row.close) i).length →
        p.std = some (Real.sqrt
          (((specWindow ((rows.insertionSort dateLe).map Row.close) i).map
              (fun x => (x - (specWindow ((rows.insertionSort dateLe).map Row.close) i).sum
                / ((specWindow ((rows.insertionSort dateLe).map Row.close) i).length : ℝ)) ^ 2)).sum
            / (((specWindow ((rows.insertionSort dateLe).map Row.close) i).length : ℝ) - 1)))) := by
  intro s rows i p hp
  rcases processStock_getElem?.mp hp with ⟨r, hr, rfl⟩
  obtain ⟨hi, _⟩ := List.getElem?_eq_some.mp hr
  set closes := (rows.insertionSort dateLe).map Row.close with hcl
  have hi' : i < closes.length := by
    rw [hcl, List.length_map]
    exact hi
  have hwe : window closes i = specWindow closes i := window_eq_specWindow closes i hi'
  have hlen : (specWindow closes i).length = min (i + 1) windowSize := by
    rw [← hwe]
    exact window_length closes i hi'
  have hlen1 : 1 ≤ (specWindow closes i).length := by
    rw [hlen]
    unfold windowSize
    omega
  refine ⟨hlen, ?_, ?_, ?_⟩
  · show mean (window closes i) = _
    rw [hwe]
    rfl
  · show rollStd closes i = none ↔ _
    rw [rollStd, hwe]
    by_cases hone : (specWindow closes i).length ≤ 1
    · rw [if_pos hone]
      simp
      omega
    · rw [if_neg hone]
      simp
      omega
  · intro h2
    show rollStd closes i = _
    rw [rollStd, hwe, if_neg (by omega)]
    simp only [sampleVar, mean]

/-- Witness for C2: the second point of a concrete two-row instrument,
where the window has the spec's size and statistics. -/
theorem rolling_stats_spec_witness :
    ((processStock "S" [⟨0, 1, 0, 4⟩, ⟨1, 1, 0, 6⟩])[1]?
        = some (mkPoint "S" [4, 6] 1 ⟨1, 1, 0, 6⟩)) ∧
    (specWindow (([⟨0, 1, 0, 4⟩, ⟨1, 1, 0, 6⟩] : List Row).insertionSort dateLe
        |>.map Row.close) 1).length = min 2 windowSize := by
  have hsort : ([⟨0, 1, 0, 4⟩, ⟨1, 1, 0, 6⟩] : List Row).insertionSort dateLe
      = [⟨0, 1, 0, 4⟩, ⟨1, 1, 0, 6⟩] := by
    simp [List.insertionSort, List.orderedInsert, dateLe]
  have hp : (processStock "S" [⟨0, 1, 0, 4⟩, ⟨1, 1, 0, 6⟩])[1]?
      = some (mkPoint "S" [4, 6] 1 ⟨1, 1, 0, 6⟩) := by
    simp only [processStock, hsort]
    simp [List.enum]
  exact ⟨hp, (rolling_stats_spec "S" _ 1 _ hp).1⟩

/-- C3: every produced point with a defined std has
`upper_band = moving_average + std_dev` and
`lower_band = moving_average - std_dev` (band multiplier 1, symmetric), the
std is non-negative, and hence `lower_band ≤ moving_average ≤ upper_band`. -/
theorem band_invariant :
    ∀ (avail : List (String × List Row)) (p : Point) (sd : ℝ),
      p ∈ analyzeCore avail → p.std = some sd →
      p.upper = some (p.ma + sd) ∧ p.lower = some (p.ma - sd) ∧
      0 ≤ sd ∧ p.ma - sd ≤ p.ma ∧ p.ma ≤ p.ma + sd := by
  intro avail p sd hp hstd
  rcases mem_analyzeCore hp with ⟨s, hps⟩
  rcases mem_processStock.mp hps with ⟨i, r, hir, rfl⟩
  have hstd0 : rollStd ((rowsFor avail s).insertionSort dateLe |>.map Row.close) i
      = some sd := by
    simpa [mkPoint] using hstd
  have hnn : 0 ≤ sd := rollStd_nonneg hstd0
  simp only [mkPoint, hstd0]
  refine ⟨rfl, rfl, hnn, by linarith, by linarith⟩

/-- Witness for C3: the second point of a flat two-day instrument, with
`std = some 0`, satisfies the band invariant. -/
theorem band_invariant_witness :
    (mkPoint "A" [3, 3] 1 ⟨1, 0, 0, 3⟩ ∈ analyzeCore [("A", [⟨0, 0, 0, 3⟩, ⟨1, 0, 0, 3⟩])]) ∧
    (mkPoint "A" [3, 3] 1 ⟨1, 0, 0, 3⟩).std = some 0 ∧
    (mkPoint "A" [3, 3] 1 ⟨1, 0, 0, 3⟩).upper = some ((mkPoint "A" [3, 3] 1 ⟨1, 0, 0, 3⟩).ma + 0) := by
  have hsort : ([⟨0, 0, 0, 3⟩, ⟨1, 0, 0, 3⟩] : List Row).insertionSort dateLe
      = [⟨0, 0, 0, 3⟩, ⟨1, 0, 0, 3⟩] := by
    simp [List.insertionSort, List.orderedInsert, dateLe]
  have hrows : rowsFor [("A", [⟨0, 0, 0, 3⟩, ⟨1, 0, 0, 3⟩])] "A"
      = [⟨0, 0, 0, 3⟩, ⟨1, 0, 0, 3⟩] := by
    simp [rowsFor]
  have hmem : mkPoint "A" [3, 3] 1 ⟨1, 0, 0, 3⟩
      ∈ analyzeCore [("A", [⟨0, 0, 0, 3⟩, ⟨1, 0, 0, 3⟩])] := by
    unfold analyzeCore
    rw [if_neg (by simp)]
    have hstocks : stocksOf [("A", [⟨0, 0, 0, 3⟩, ⟨1, 0, 0, 3⟩])] = ["A"] := by
      simp [stocksOf, List.insertionSort, List.orderedInsert, firstBy]
    rw [hstocks]
    refine List.mem_flatMap.mpr ⟨"A", by simp, ?_⟩
    rw [hrows]
    simp only [processStock, hsort]
    simp [List.enum]
  have hw : window [(3:ℝ), 3] 1 = [(3:ℝ), 3] := by
    norm_num [window, windowSize]
  have hm : mean [(3:ℝ), 3] = 3 := by
    norm_num [mean]
  have hv : sampleVar [(3:ℝ), 3] = 0 := by
    norm_num [sampleVar, hm]
  have hstd : (mkPoint "A" [3, 3] 1 ⟨1, 0, 0, 3⟩).std = some 0 := by
    simp [mkPoint, rollStd, hw, hv]
  exact ⟨hmem, hstd, (band_invariant _ _ 0 hmem hstd).1⟩

/-- C5: per (instrument file, trade date), deduplication keeps exactly
one row — the first of the same-date candidates after sorting them by the
secondary key (contract expiry) ascending. -/
theorem dedup_keeps_first_by_expiry :
    ∀ (rows : List Row) (d : ℕ),
      (dedup rows).filter (fun x => x.date = d) =
        ((rows.filter (fun x => x.date = d)).insertionSort expiryLe).take 1 ∧
      (d ∈ rows.map Row.date →
        ((dedup rows).filter (fun x => x.date = d)).length = 1) := by
  intro rows d
  have h1 : (dedup rows).filter (fun x => x.date = d) =
      ((rows.filter (fun x => x.date = d)).insertionSort expiryLe).take 1 := by
    unfold dedup
    rw [firstBy_filter_key Row.date, filter_insertionSort_date]
  refine ⟨h1, fun hd => ?_⟩
  rcases List.mem_map.mp hd with ⟨r, hr, hrd⟩
  have hne : rows.filter (fun x => x.date = d) ≠ [] := by
    intro hnil
    have : r ∈ rows.filter (fun x => x.date = d) :=
      List.mem_filter.mpr ⟨hr, by simp [hrd]⟩
    rw [hnil] at this
    cases this
  have hlen : 0 < ((rows.filter (fun x => x.date = d)).insertionSort expiryLe).length := by
    rw [List.length_insertionSort]
    exact List.length_pos.mpr hne
  rw [h1, List.length_take]
  omega

/-- Witness for C5: two same-date rows with different expiries — date 5 does
occur, and exactly one row survives. -/
theorem dedup_keeps_first_by_expiry_witness :
    (5 ∈ ([⟨5, 2, 0, 1⟩, ⟨5, 1, 0, 2⟩] : List Row).map Row.date) ∧
    ((dedup [⟨5, 2, 0, 1⟩, ⟨5, 1, 0, 2⟩]).filter (fun x => x.date = 5)).length = 1 := by
  have hd : 5 ∈ ([⟨5, 2, 0, 1⟩, ⟨5, 1, 0, 2⟩] : List Row).map Row.date := by
    simp
  exact ⟨hd, (dedup_keeps_first_by_expiry [⟨5, 2, 0, 1⟩, ⟨5, 1, 0, 2⟩] 5).2 hd⟩

/-- C6 (counterexample): a source that exists but cannot be read
(corrupt) is NOT skipped — the whole run aborts, even though another
instrument's source is perfectly fine.  Only `FileNotFoundError` is caught
by the loader loop. -/
theorem corrupt_source_aborts_run :
    analyzeE [("A", Source.corrupt), ("B", Source.ok [⟨1, 1, 0, 100⟩])]
      = .error () := by
  simp [analyzeE, loadAll, Except.map]

/-- C6 (amended): in a run with no corrupt source, every missing source
is skipped with one non-fatal warning each, and the loader returns exactly
the readable instruments' (deduplicated) frames. -/
theorem loader_skips_missing_sources :
    ∀ srcs : List (String × Source),
      (∀ q ∈ srcs, isCorrupt q.2 = false) →
      loadAll srcs = .ok
        (srcs.filterMap (fun q => (okRows q.2).map (fun rows => (q.1, dedup rows))),
         (srcs.filter (fun q => isMissing q.2)).length) := by
  intro srcs h
  rw [loadAll_eq]
  have hany : srcs.any (fun q => isCorrupt q.2) = false :=
    List.any_eq_false.mpr (fun q hq => by simp [h q hq])
  rw [hany]
  simp

/-- Witness for the amended C6: one missing and one readable source — the
run succeeds, keeps the readable instrument, and counts one warning. -/
theorem loader_skips_missing_sources_witness :
    (∀ q ∈ [("A", Source.missing), ("B", Source.ok [⟨1, 2, 3, 5⟩])],
      isCorrupt q.2 = false) ∧
    loadAll [("A", Source.missing), ("B", Source.ok [⟨1, 2, 3, 5⟩])]
      = .ok ([("B", dedup [⟨1, 2, 3, 5⟩])], 1) := by
  have h : ∀ q ∈ [("A", Source.missing), ("B", Source.ok [⟨1, 2, 3, (5:ℝ)⟩])],
      isCorrupt q.2 = false := by
    intro q hq
    rcases List.mem_cons.mp hq with rfl | hq
    · rfl
    rcases List.mem_cons.mp hq with rfl | hq
    · rfl
    cases hq
  refine ⟨h, ?_⟩
  rw [loader_skips_missing_sources _ h]
  simp [List.filterMap_cons, List.filter_cons]

/-! Emptiness of the analysis result -/

theorem firstBy_eq_nil {α β : Type} [DecidableEq β] (key : α → β) (l : List α) :
    firstBy key l = [] ↔ l = [] := by
  cases l with
  | nil => simp [firstBy]
  | cons a rest =>
    rw [firstBy]
    simp

theorem dedup_eq_nil (rows : List Row) : dedup rows = [] ↔ rows = [] := by
  unfold dedup
  rw [firstBy_eq_nil]
  constructor
  · intro h
    have hl := List.length_insertionSort rowLe rows
    rw [h] at hl
    exact List.length_eq_zero.mp hl.symm
  · intro h
    subst h
    rfl

theorem processStock_eq_nil (s : String) (rows : List Row) :
    processStock s rows = [] ↔ rows = [] := by
  constructor
  · intro h
    have hl := length_processStock s rows
    rw [h] at hl
    exact List.length_eq_zero.mp hl.symm
  · intro h
    subst h
    rfl

theorem okRows_eq_some {src : Source} {rows : List Row} :
    okRows src = some rows ↔ src = .ok rows := by
  cases src <;> simp

theorem analyzeCore_eq_nil (avail : List (String × List Row)) :
    analyzeCore avail = [] ↔ ∀ e ∈ avail, e.2 = [] := by
  unfold analyzeCore
  by_cases he : avail.isEmpty
  · rw [if_pos he]
    have : avail = [] := List.isEmpty_iff.mp he
    subst this
    simp
  · rw [if_neg he, List.flatMap_eq_nil_iff]
    constructor
    · intro h e he'
      rcases e with ⟨n, rows⟩
      by_contra hne
      have hnmem : n ∈ avail.map Prod.fst := List.mem_map.mpr ⟨(n, rows), he', rfl⟩
      have hblock := h n (mem_stocksOf.mpr hnmem)
      rw [processStock_eq_nil] at hblock
      have hmemf : (n, rows) ∈ avail.filter (fun p => p.1 = n) :=
        List.mem_filter.mpr ⟨he', by simp⟩
      have hrfor : rowsFor avail n = [] := hblock
      unfold rowsFor at hrfor
      exact hne (List.flatMap_eq_nil_iff.mp hrfor (n, rows) hmemf)
    · intro h s hs
      rw [processStock_eq_nil]
      unfold rowsFor
      rw [List.flatMap_eq_nil_iff]
      intro q hq
      exact h q (List.mem_of_mem_filter hq)

theorem display_eq_none_iff (res : List Point) : display res = none ↔ res = [] := by
  unfold display
  by_cases hr : res.isEmpty
  · rw [if_pos hr]
    simp [List.isEmpty_iff.mp hr]
  · rw [if_neg hr]
    constructor
    · intro hh
      cases hh
    · intro hres
      exact absurd (by simp [hres]) hr

/-- C7 (counterexample): the "only if" direction fails — here the single
instrument's source IS available (readable, zero data rows), yet the result
is empty and the presentation layer hard-stops. -/
theorem empty_source_empty_result :
    analyzeE [("A", Source.ok [])] = .ok [] ∧
    display [] = none ∧
    isMissing (Source.ok ([] : List Row)) = false := by
  refine ⟨?_, rfl, rfl⟩
  have hload : loadAll [("A", Source.ok [])] = .ok ([("A", dedup [])], 0) := by
    simp [loadAll, Except.map]
  have hded : dedup ([] : List Row) = [] := by
    simp [dedup, List.insertionSort, firstBy]
  rw [analyzeE, hload]
  show Except.ok (analyzeCore [("A", dedup [])]) = Except.ok []
  rw [hded]
  congr 1
  rw [analyzeCore_eq_nil]
  intro e he
  rcases List.mem_cons.mp he with rfl | he
  · rfl
  cases he

/-- C7 (amended): for a run without corrupt sources the pipeline
succeeds, and the presentation layer hard-stops (empty result) iff no
instrument produced any observation — i.e. every source is missing or
readable with zero rows; "every source unavailable" is sufficient but not
necessary. -/
theorem empty_result_iff_no_observations :
    ∀ srcs : List (String × Source),
      (∀ q ∈ srcs, isCorrupt q.2 = false) →
      ∃ res, analyzeE srcs = .ok res ∧
        (display res = none ↔
          ∀ q ∈ srcs, ∀ rows, q.2 = Source.ok rows → rows = []) := by
  intro srcs h
  have hany : srcs.any (fun q => isCorrupt q.2) = false :=
    List.any_eq_false.mpr (fun q hq => by simp [h q hq])
  rw [analyzeE, loadAll_eq, hany]
  simp only [Bool.false_eq_true, if_false, Except.map]
  refine ⟨_, rfl, ?_⟩
  rw [display_eq_none_iff, analyzeCore_eq_nil]
  constructor
  · intro hall q hq rows hrows
    have hmem : (q.1, dedup rows)
        ∈ srcs.filterMap (fun q => (okRows q.2).map (fun rows => (q.1, dedup rows))) := by
      refine List.mem_filterMap.mpr ⟨q, hq, ?_⟩
      rw [okRows_eq_some.mpr hrows]
      rfl
    have := hall _ hmem
    exact (dedup_eq_nil rows).mp this
  · intro hall e he
    rcases List.mem_filterMap.mp he with ⟨q, hq, hfq⟩
    rcases Option.map_eq_some'.mp hfq with ⟨rows, hok, hge⟩
    have hrows : rows = [] := hall q hq rows (okRows_eq_some.mp hok)
    subst hrows
    rw [← hge]
    exact (dedup_eq_nil []).mpr rfl

/-- Witness for the amended C7: a run whose single source is missing — the
hypotheses hold and the equivalence is produced by the theorem. -/
theorem empty_result_iff_no_observations_witness :
    (∀ q ∈ [("C", Source.missing)], isCorrupt q.2 = false) ∧
    ∃ res, analyzeE [("C", Source.missing)] = .ok res ∧
      (display res = none ↔
        ∀ q ∈ [("C", Source.missing)], ∀ rows, q.2 = Source.ok rows → rows = []) := by
  have h : ∀ q ∈ [("C", Source.missing)], isCorrupt q.2 = false := by
    intro q hq
    rcases List.mem_cons.mp hq with rfl | hq
    · rfl
    cases hq
  exact ⟨h, empty_result_iff_no_observations _ h⟩

/-! Isolation helpers -/

theorem filter_stock_mid (e1 e2 mid : List (String × List Row)) (A : String)
    (hmid : ∀ q ∈ mid, q.1 ≠ A) :
    (analyzeCore (e1 ++ (mid ++ e2))).filter (fun p => p.stock = A) =
      if A ∈ e1.map Prod.fst ∨ A ∈ e2.map Prod.fst
      then processStock A (rowsFor (e1 ++ e2) A) else [] := by
  rw [filter_analyzeCore]
  have hmem : (A ∈ (e1 ++ (mid ++ e2)).map Prod.fst) ↔
      (A ∈ e1.map Prod.fst ∨ A ∈ e2.map Prod.fst) := by
    simp only [List.map_append, List.mem_append]
    constructor
    · rintro (h | h | h)
      · exact Or.inl h
      · rcases List.mem_map.mp h with ⟨q, hq, rfl⟩
        exact absurd rfl (hmid q hq)
      · exact Or.inr h
    · rintro (h | h)
      · exact Or.inl h
      · exact Or.inr (Or.inr h)
  have hrows : rowsFor (e1 ++ (mid ++ e2)) A = rowsFor (e1 ++ e2) A := by
    unfold rowsFor
    rw [List.filter_append, List.filter_append, List.filter_append]
    have hmid0 : mid.filter (fun p => p.1 = A) = [] :=
      List.filter_eq_nil_iff.mpr (fun q hq => by simp [hmid q hq])
    rw [hmid0]
    simp
  rw [hrows]
  simp only [hmem]

theorem analyzeE_ok_shape {srcs : List (String × Source)} {out : List Point}
    (h : analyzeE srcs = .ok out) :
    out = analyzeCore
      (srcs.filterMap (fun q => (okRows q.2).map (fun rows => (q.1, dedup rows)))) := by
  rw [analyzeE, loadAll_eq] at h
  by_cases hc : srcs.any (fun q => isCorrupt q.2)
  · rw [if_pos hc] at h
    cases h
  · rw [if_neg hc] at h
    simp only [Except.map] at h
    cases h
    rfl

/-- C8: noninterference — two runs that differ only in instrument `B`'s
source data produce identical computed values (all fields of every point) for
any other instrument `A`, provided both runs complete. -/
theorem isolation_across_instruments :
    ∀ (pre post : List (String × Source)) (B A : String) (s1 s2 : Source)
      (out1 out2 : List Point),
      A ≠ B →
      analyzeE (pre ++ (B, s1) :: post) = .ok out1 →
      analyzeE (pre ++ (B, s2) :: post) = .ok out2 →
      out1.filter (fun p => p.stock = A) = out2.filter (fun p => p.stock = A) := by
  intro pre post B A s1 s2 out1 out2 hAB h1 h2
  rw [analyzeE_ok_shape h1, analyzeE_ok_shape h2]
  have key : ∀ src : Source,
      (analyzeCore (((pre ++ (B, src) :: post)).filterMap
          (fun q => (okRows q.2).map (fun rows => (q.1, dedup rows))))).filter
        (fun p => p.stock = A) =
      if A ∈ (pre.filterMap
            (fun q => (okRows q.2).map (fun rows => (q.1, dedup rows)))).map Prod.fst
          ∨ A ∈ (post.filterMap
            (fun q => (okRows q.2).map (fun rows => (q.1, dedup rows)))).map Prod.fst
      then processStock A
        (rowsFor (pre.filterMap (fun q => (okRows q.2).map (fun rows => (q.1, dedup rows)))
          ++ post.filterMap (fun q => (okRows q.2).map (fun rows => (q.1, dedup rows)))) A)
      else [] := by
    intro src
    rw [List.filterMap_append, List.filterMap_cons]
    cases hs : ((okRows src).map (fun rows => (B, dedup rows))) with
    | none =>
      simp only [hs]
      have := filter_stock_mid
        (pre.filterMap (fun q => (okRows q.2).map (fun rows => (q.1, dedup rows))))
        (post.filterMap (fun q => (okRows q.2).map (fun rows => (q.1, dedup rows))))
        [] A (by simp)
      simpa using this
    | some e =>
      simp only [hs]
      have he : e.1 = B := by
        rcases Option.map_eq_some'.mp hs with ⟨rows, _, hge⟩
        rw [← hge]
      have hmid : ∀ q ∈ [e], q.1 ≠ A := by
        intro q hq
        rcases List.mem_cons.mp hq with rfl | hq
        · rw [he]
          exact fun hBA => hAB hBA.symm
        · cases hq
      have := filter_stock_mid
        (pre.filterMap (fun q => (okRows q.2).map (fun rows => (q.1, dedup rows))))
        (post.filterMap (fun q => (okRows q.2).map (fun rows => (q.1, dedup rows))))
        [e] A hmid
      rw [List.singleton_append] at this
      exact this
  rw [key s1, key s2]

/-- Witness for C8: two runs differing only in instrument `B` (missing vs
readable-but-empty), both succeeding; `A`'s slice agrees. -/
theorem isolation_across_instruments_witness :
    ("A" : String) ≠ "B" ∧
    analyzeE [("B", Source.missing)] = .ok [] ∧
    analyzeE [("B", Source.ok [])] = .ok [] ∧
    (List.filter (fun p => p.stock = "A") ([] : List Point))
      = List.filter (fun p => p.stock = "A") ([] : List Point) := by
  have hAB : ("A" : String) ≠ "B" := by decide
  have hrun1 : analyzeE [("B", Source.missing)] = .ok [] := by
    have hload : loadAll [("B", Source.missing)] = .ok ([], 1) := by
      simp [loadAll, Except.map]
    rw [analyzeE, hload]
    show Except.ok (analyzeCore []) = Except.ok []
    congr 1
  have hrun2 : analyzeE [("B", Source.ok [])] = .ok [] := by
    have hded : dedup ([] : List Row) = [] := by
      simp [dedup, List.insertionSort, firstBy]
    have hload : loadAll [("B", Source.ok [])] = .ok ([("B", [])], 0) := by
      simp [loadAll, Except.map, hded]
    rw [analyzeE, hload]
    show Except.ok (analyzeCore [("B", [])]) = Except.ok []
    congr 1
    rw [analyzeCore_eq_nil]
    intro e he
    rcases List.mem_cons.mp he with rfl | he
    · rfl
    cases he
  exact ⟨hAB, hrun1, hrun2,
    isolation_across_instruments [] [] "B" "A" Source.missing (Source.ok [])
      [] [] hAB (by simpa using hrun1) (by simpa using hrun2)⟩

/-- C9 (counterexample): the raw auxiliary columns are NOT discarded —
the contract-expiry value (7) and a further untouched raw column value (3)
of the source row appear in the produced point, and changing only the
untouched raw column changes the pipeline's output. -/
theorem raw_fields_reach_output :
    (analyzeE [("A", Source.ok [⟨1, 7, 3, 100⟩])]).map
        (fun l => l.map (fun p => (p.expiry, p.extra))) = .ok [(7, 3)] ∧
    analyzeE [("A", Source.ok [⟨1, 7, 3, 100⟩])]
      ≠ analyzeE [("A", Source.ok [⟨1, 7, 4, 100⟩])] := by
  have heval : ∀ (x : ℤ), analyzeE [("A", Source.ok [⟨1, 7, x, 100⟩])]
      = .ok [mkPoint "A" [100] 0 ⟨1, 7, x, 100⟩] := by
    intro x
    have hded : dedup [⟨1, 7, x, (100:ℝ)⟩] = [⟨1, 7, x, 100⟩] := by
      simp [dedup, List.insertionSort, firstBy]
    have hload : loadAll [("A", Source.ok [⟨1, 7, x, 100⟩])]
        = .ok ([("A", [⟨1, 7, x, 100⟩])], 0) := by
      simp [loadAll, Except.map, hded]
    rw [analyzeE, hload]
    show Except.ok (analyzeCore [("A", [⟨1, 7, x, 100⟩])]) = _
    congr 1
    unfold analyzeCore
    rw [if_neg (by simp)]
    have hstocks : stocksOf [("A", [⟨1, 7, x, (100:ℝ)⟩])] = ["A"] := by
      simp [stocksOf, List.insertionSort, List.orderedInsert, firstBy]
    rw [hstocks]
    have hrows : rowsFor [("A", [⟨1, 7, x, (100:ℝ)⟩])] "A" = [⟨1, 7, x, 100⟩] := by
      simp [rowsFor]
    simp [hrows, processStock, List.insertionSort, List.enum]
  constructor
  · rw [heval 3]
    simp [mkPoint, Except.map]
  · intro h
    rw [heval 3, heval 4] at h
    have hx := congrArg (fun e => e.map (fun l => l.map (fun p => p.extra))) h
    simp [mkPoint, Except.map] at hx

/-- C9 (amended): every produced point carries, besides the normalized
fields and the derived columns, the untouched raw columns (expiry and any
other raw field) copied from the source row it was built from. -/
theorem output_carries_raw_fields :
    ∀ (avail : List (String × List Row)) (p : Point),
      p ∈ analyzeCore avail →
      ∃ r ∈ rowsFor avail p.stock,
        p.date = r.date ∧ p.expiry = r.expiry ∧ p.extra = r.extra ∧
        p.close = r.close := by
  intro avail p hp
  rcases mem_analyzeCore hp with ⟨s, hps⟩
  rcases mem_processStock.mp hps with ⟨i, r, hir, rfl⟩
  obtain ⟨hi, hget⟩ := List.getElem?_eq_some.mp hir
  have hrmem : r ∈ (rowsFor avail s).insertionSort dateLe := by
    rw [← hget]
    exact List.getElem_mem hi
  have hr : r ∈ rowsFor avail s :=
    (List.perm_insertionSort dateLe _).mem_iff.mp hrmem
  have hstock :
      (mkPoint s (((rowsFor avail s).insertionSort dateLe).map Row.close) i r).stock
        = s := by
    simp [mkPoint]
  rw [hstock]
  exact ⟨r, hr, by simp [mkPoint], by simp [mkPoint], by simp [mkPoint],
    by simp [mkPoint]⟩

/-- Witness for the amended C9: a one-row instrument whose produced point is
in the output and indeed carries the raw columns of its source row. -/
theorem output_carries_raw_fields_witness :
    (mkPoint "Z" [50] 0 ⟨2, 9, 5, 50⟩ ∈ analyzeCore [("Z", [⟨2, 9, 5, 50⟩])]) ∧
    (∃ r ∈ rowsFor [("Z", [⟨2, 9, 5, (50:ℝ)⟩])] (mkPoint "Z" [50] 0 ⟨2, 9, 5, 50⟩).stock,
      (mkPoint "Z" [50] 0 ⟨2, 9, 5, 50⟩).date = r.date ∧
      (mkPoint "Z" [50] 0 ⟨2, 9, 5, 50⟩).expiry = r.expiry ∧
      (mkPoint "Z" [50] 0 ⟨2, 9, 5, 50⟩).extra = r.extra ∧
      (mkPoint "Z" [50] 0 ⟨2, 9, 5, 50⟩).close = r.close) := by
  have hmem : mkPoint "Z" [50] 0 ⟨2, 9, 5, 50⟩
      ∈ analyzeCore [("Z", [⟨2, 9, 5, 50⟩])] := by
    unfold analyzeCore
    rw [if_neg (by simp)]
    have hstocks : stocksOf [("Z", [⟨2, 9, 5, (50:ℝ)⟩])] = ["Z"] := by
      simp [stocksOf, List.insertionSort, List.orderedInsert, firstBy]
    rw [hstocks]
    refine List.mem_flatMap.mpr ⟨"Z", by simp, ?_⟩
    have hrows : rowsFor [("Z", [⟨2, 9, 5, (50:ℝ)⟩])] "Z" = [⟨2, 9, 5, 50⟩] := by
      simp [rowsFor]
    rw [hrows]
    simp [processStock, List.insertionSort, List.enum]
  exact ⟨hmem, output_carries_raw_fields _ _ hmem⟩

end Stocks
